import Mathlib

/-!
Verification of the `restate` finite-state-machine library.

The development shallowly embeds the core of the crate:
* `TransitionMap` (from `src/common/map.rs`): a vector of per-state nodes,
  each holding a list of `(event, target)` entries, with linear-scan
  insertion (rejecting duplicates) and lookup.
* `Machine` and its `send` dispatch routine (from `src/blocking/machine.rs`),
  with callback invocations made observable through an explicit trace.

States `S`, events `E` and targets `T` are arbitrary types with decidable
equality (the Rust code only requires `PartialEq`).
-/

/-- Rust `To<TEvent, T>` from `src/common/map.rs`: one `(event, target)` entry of a node. -/
structure To (E T : Type) where
  event : E
  to' : T
deriving Repr, DecidableEq

/-- Rust `Node<TState, TEvent, T>` from `src/common/map.rs`: a source state together with
its outgoing entries.  The Rust field `from` is a Lean keyword, rendered `from'`. -/
structure Node (S E T : Type) where
  from' : S
  next : List (To E T)

/-- Rust `TransitionMap<TState, TEvent, T>` from `src/common/map.rs`. -/
structure TransitionMap (S E T : Type) where
  nodes : List (Node S E T)

variable {S E T Ctx : Type}

/-- Rust `TransitionMap::new`. -/
def TransitionMap.new : TransitionMap S E T := ⟨[]⟩

/-- The node-list part of `TransitionMap::insert`.  The Rust code looks for the
first node whose `from` equals the key (`iter_mut().find(...)`): if found and the
node already has an entry for `event` it panics (modelled as `none`), otherwise the
entry is pushed at the end of that node's list; if no node matches, a fresh node is
pushed at the end of the vector. -/
def insertNodes [DecidableEq S] [DecidableEq E] (event : E) (from' : S) (to' : T) :
    List (Node S E T) → Option (List (Node S E T))
  | [] => some [⟨from', [⟨event, to'⟩]⟩]
  | n :: ns =>
    if n.from' = from' then
      if n.next.any (fun x => decide (x.event = event)) then
        none
      else
        some ({ n with next := n.next ++ [⟨event, to'⟩] } :: ns)
    else
      (insertNodes event from' to' ns).map (n :: ·)

/-- Rust `TransitionMap::insert`.  `none` models the panic on a duplicate
`(from, event)` pair. -/
def TransitionMap.insert [DecidableEq S] [DecidableEq E] (m : TransitionMap S E T)
    (event : E) (from' : S) (to' : T) : Option (TransitionMap S E T) :=
  (insertNodes event from' to' m.nodes).map (⟨·⟩)

/-- Rust `TransitionMap::get` (and `get_mut`, which has the identical lookup logic):
filter the nodes whose `from` equals the key, flatten their entry lists, and find
the first entry whose event matches. -/
def TransitionMap.get [DecidableEq S] [DecidableEq E] (m : TransitionMap S E T)
    (event : E) (from' : S) : Option T :=
  ((((m.nodes.filter fun node => decide (node.from' = from')).map
      fun node => node.next).flatten).find? fun x => decide (x.event = event)).map
    fun x => x.to'

/-- The sequence yielded by the `States` iterator (`TransitionMap::states`):
the `from` field of each node, in order. -/
def TransitionMap.states (m : TransitionMap S E T) : List S :=
  m.nodes.map (·.from')

/-- The sequence yielded by the `Events` iterator (`TransitionMap::events`):
the events of every entry of every node, in node order. -/
def TransitionMap.events (m : TransitionMap S E T) : List E :=
  (m.nodes.map fun n => n.next.map (·.event)).flatten

/-- The registered `(from, event)` pairs of the table, in iteration order. -/
def TransitionMap.keys (m : TransitionMap S E T) : List (S × E) :=
  (m.nodes.map fun n => n.next.map fun x => (n.from', x.event)).flatten

/-- Well-formedness of a table: node source states are pairwise distinct, every
node is nonempty, and within a node the events are pairwise distinct.  `new`
satisfies it and `insert` preserves it, so every table the library can actually
build is well-formed. -/
def TransitionMap.Wf (m : TransitionMap S E T) : Prop :=
  (m.nodes.map (·.from')).Nodup ∧
  (∀ n ∈ m.nodes, n.next ≠ []) ∧
  (∀ n ∈ m.nodes, (n.next.map (·.event)).Nodup)

/-- Repeated insertion, used to describe tables built by a sequence of
successful `insert` calls; fails as soon as one insertion panics. -/
def TransitionMap.insertList [DecidableEq S] [DecidableEq E] :
    List (E × S × T) → TransitionMap S E T → Option (TransitionMap S E T)
  | [], m => some m
  | (e, f, t) :: rest, m =>
    match m.insert e f t with
    | none => none
    | some m' => TransitionMap.insertList rest m'

theorem get_nil [DecidableEq S] [DecidableEq E] (e : E) (f : S) :
    (TransitionMap.get (S := S) (E := E) (T := T) ⟨[]⟩ e f) = none := rfl

theorem get_cons [DecidableEq S] [DecidableEq E] (e : E) (f : S) (n : Node S E T)
    (ns : List (Node S E T)) :
    TransitionMap.get ⟨n :: ns⟩ e f =
      if n.from' = f then
        match n.next.find? (fun x => decide (x.event = e)) with
        | some x => some x.to'
        | none => TransitionMap.get ⟨ns⟩ e f
      else TransitionMap.get ⟨ns⟩ e f := by
  by_cases h : n.from' = f
  · simp only [TransitionMap.get, List.filter_cons, h, decide_True, List.map_cons,
      List.flatten, List.find?_append]
    cases hf : n.next.find? (fun x => decide (x.event = e)) <;>
      simp [TransitionMap.get, hf, Option.or]
  · simp [TransitionMap.get, List.filter_cons, h]

/-- Recursive restatement of the lookup scan, convenient for induction. -/
def getNodes [DecidableEq S] [DecidableEq E] (e : E) (f : S) : List (Node S E T) → Option T
  | [] => none
  | n :: ns =>
    if n.from' = f then
      match n.next.find? (fun x => decide (x.event = e)) with
      | some x => some x.to'
      | none => getNodes e f ns
    else getNodes e f ns

theorem get_eq_getNodes [DecidableEq S] [DecidableEq E] (e : E) (f : S)
    (ns : List (Node S E T)) : TransitionMap.get ⟨ns⟩ e f = getNodes e f ns := by
  induction ns with
  | nil => rfl
  | cons n ns ih =>
    rw [get_cons, getNodes]
    by_cases h : n.from' = f
    · simp only [if_pos h]
      cases n.next.find? (fun x => decide (x.event = e)) <;> simp [ih]
    · simp [if_neg h, ih]

theorem getNodes_of_from_not_mem [DecidableEq S] [DecidableEq E] (e : E) (f : S)
    (ns : List (Node S E T)) (h : f ∉ ns.map (·.from')) : getNodes e f ns = none := by
  induction ns with
  | nil => rfl
  | cons n ns ih =>
    simp only [List.map_cons, List.mem_cons, not_or] at h
    rw [getNodes, if_neg (fun hh => h.1 hh.symm)]
    exact ih h.2

/-- Lookup after a successful insertion: the new pair maps to the inserted target
and every other pair is looked up exactly as before (no entry is overwritten). -/
theorem getNodes_insertNodes [DecidableEq S] [DecidableEq E] (e : E) (f : S) (t : T)
    (ns ns' : List (Node S E T)) (h : insertNodes e f t ns = some ns') (e' : E) (f' : S) :
    getNodes e' f' ns' =
      if e' = e ∧ f' = f then some t else getNodes e' f' ns := by
  induction ns generalizing ns' with
  | nil =>
    simp only [insertNodes, Option.some.injEq] at h
    subst h
    by_cases hf : f' = f
    · subst hf
      by_cases he : e' = e
      · subst he
        simp [getNodes, List.find?]
      · have hd : decide (e = e') = false := decide_eq_false fun hh => he hh.symm
        simp [getNodes, List.find?, hd, he]
    · have hd : ¬(f = f') := fun hh => hf hh.symm
      simp [getNodes, hd, hf]
  | cons n ns ih =>
    rw [insertNodes] at h
    by_cases hn : n.from' = f
    · rw [if_pos hn] at h
      by_cases hany : (n.next.any fun x => decide (x.event = e)) = true
      · rw [if_pos hany] at h; exact absurd h (by simp)
      · rw [if_neg hany, Option.some.injEq] at h
        subst h
        have hfind : n.next.find? (fun x => decide (x.event = e)) = none := by
          rw [List.find?_eq_none]
          intro x hx
          simp only [List.any_eq_true, not_exists, not_and] at hany
          simpa using hany x hx
        by_cases hf : f' = f
        · subst hf
          by_cases he : e' = e
          · subst he
            simp [getNodes, hn, List.find?_append, hfind, List.find?]
          · have hd : decide (e = e') = false := decide_eq_false fun hh => he hh.symm
            cases hfind2 : n.next.find? (fun x => decide (x.event = e')) with
            | some x => simp [getNodes, hn, List.find?_append, hfind2, List.find?, hd, he]
            | none => simp [getNodes, hn, List.find?_append, hfind2, List.find?, hd, he]
        · have hcond : ¬(n.from' = f') := fun hh => hf (hn.symm.trans hh).symm
          simp [getNodes, hcond, hf]
    · rw [if_neg hn] at h
      cases hms : insertNodes e f t ns with
      | none => simp [hms] at h
      | some ms =>
        rw [hms, Option.map_some'] at h
        injection h with h
        subst h
        rw [getNodes, getNodes]
        by_cases hnf : n.from' = f'
        · rw [if_pos hnf, if_pos hnf]
          cases hfind : n.next.find? (fun x => decide (x.event = e')) with
          | some x =>
            rw [if_neg]
            rintro ⟨he, hf⟩
            exact hn (hnf.trans hf)
          | none =>
            rw [ih ms hms]
        · rw [if_neg hnf, if_neg hnf]
          exact ih ms hms

/-- A fresh key can always be inserted: if lookup finds nothing, insertion
does not panic. -/
theorem insertNodes_isSome_of_getNodes_none [DecidableEq S] [DecidableEq E]
    (e : E) (f : S) (t : T) (ns : List (Node S E T)) (h : getNodes e f ns = none) :
    (insertNodes e f t ns).isSome = true := by
  induction ns with
  | nil => rfl
  | cons n ns ih =>
    rw [getNodes] at h
    rw [insertNodes]
    by_cases hn : n.from' = f
    · rw [if_pos hn] at h ⊢
      cases hfind : n.next.find? (fun x => decide (x.event = e)) with
      | some x => rw [hfind] at h; exact absurd h (by simp)
      | none =>
        have hany : (n.next.any fun x => decide (x.event = e)) = false := by
          rw [List.any_eq_false]
          intro x hx
          have := List.find?_eq_none.mp hfind x hx
          simpa using this
        rw [hany]
        rfl
    · rw [if_neg hn] at h ⊢
      have := ih h
      cases hms : insertNodes e f t ns with
      | none => rw [hms] at this; exact absurd this (by simp)
      | some ms => simp [hms]

/-- If insertion panics, the pair was already registered. -/
theorem getNodes_isSome_of_insertNodes_none [DecidableEq S] [DecidableEq E]
    (e : E) (f : S) (t : T) (ns : List (Node S E T)) (h : insertNodes e f t ns = none) :
    (getNodes e f ns).isSome = true := by
  induction ns with
  | nil => exact absurd h (by simp [insertNodes])
  | cons n ns ih =>
    rw [insertNodes] at h
    rw [getNodes]
    by_cases hn : n.from' = f
    · rw [if_pos hn] at h ⊢
      by_cases hany : (n.next.any fun x => decide (x.event = e)) = true
      · obtain ⟨x, hx, hex⟩ := List.any_eq_true.mp hany
        have : ∃ x, n.next.find? (fun x => decide (x.event = e)) = some x := by
          rcases hfind : n.next.find? (fun x => decide (x.event = e)) with _ | y
          · exact absurd (by simpa using List.find?_eq_none.mp hfind x hx) (by simpa using hex)
          · exact ⟨y, hfind⟩
        obtain ⟨x₀, hx₀⟩ := this
        rw [hx₀]
        rfl
      · rw [if_neg hany] at h
        exact absurd h (by simp)
    · rw [if_neg hn] at h ⊢
      cases hms : insertNodes e f t ns with
      | none => exact ih hms
      | some ms => rw [hms] at h; exact absurd h (by simp)

/-- Under distinctness of node source states, insertion of an already-present
pair panics: the entry is never silently overwritten. -/
theorem getNodes_none_of_insertNodes_some [DecidableEq S] [DecidableEq E]
    (e : E) (f : S) (t : T) (ns ns' : List (Node S E T))
    (hnd : (ns.map (·.from')).Nodup) (h : insertNodes e f t ns = some ns') :
    getNodes e f ns = none := by
  induction ns generalizing ns' with
  | nil => rfl
  | cons n ns ih =>
    rw [insertNodes] at h
    rw [getNodes]
    simp only [List.map_cons, List.nodup_cons] at hnd
    by_cases hn : n.from' = f
    · rw [if_pos hn] at h
      by_cases hany : (n.next.any fun x => decide (x.event = e)) = true
      · rw [if_pos hany] at h; exact absurd h (by simp)
      · have hfind : n.next.find? (fun x => decide (x.event = e)) = none := by
          rw [List.find?_eq_none]
          intro x hx
          simp only [List.any_eq_true, not_exists, not_and] at hany
          simpa using hany x hx
        rw [if_pos hn, hfind]
        exact getNodes_of_from_not_mem e f ns (hn ▸ hnd.1)
    · rw [if_neg hn] at h
      rw [if_neg hn]
      cases hms : insertNodes e f t ns with
      | none => rw [hms] at h; exact absurd h (by simp)
      | some ms => exact ih ms hnd.2 hms

/-- The node source states after an insertion: unchanged, or extended by the
fresh source state at the end. -/
theorem insertNodes_map_from [DecidableEq S] [DecidableEq E] (e : E) (f : S) (t : T)
    (ns ns' : List (Node S E T)) (h : insertNodes e f t ns = some ns') :
    ns'.map (·.from') = ns.map (·.from') ∨
    (f ∉ ns.map (·.from') ∧ ns'.map (·.from') = ns.map (·.from') ++ [f]) := by
  induction ns generalizing ns' with
  | nil =>
    simp only [insertNodes, Option.some.injEq] at h
    subst h
    right
    simp
  | cons n ns ih =>
    rw [insertNodes] at h
    by_cases hn : n.from' = f
    · rw [if_pos hn] at h
      by_cases hany : (n.next.any fun x => decide (x.event = e)) = true
      · rw [if_pos hany] at h; exact absurd h (by simp)
      · rw [if_neg hany, Option.some.injEq] at h
        subst h
        left
        simp
    · rw [if_neg hn] at h
      cases hms : insertNodes e f t ns with
      | none => simp [hms] at h
      | some ms =>
        rw [hms, Option.map_some'] at h
        injection h with h
        subst h
        rcases ih ms hms with h1 | ⟨h1, h2⟩
        · left; simp [h1]
        · right
          refine ⟨?_, by simp [h2]⟩
          simp only [List.map_cons, List.mem_cons, not_or]
          exact ⟨fun hh => hn hh.symm, h1⟩

/-- Each node of the list after an insertion is an old node, the fresh
single-entry node, or an old node with the new entry appended. -/
theorem mem_insertNodes [DecidableEq S] [DecidableEq E] (e : E) (f : S) (t : T)
    (ns ns' : List (Node S E T)) (h : insertNodes e f t ns = some ns')
    (n' : Node S E T) (hm : n' ∈ ns') :
    n' ∈ ns ∨ n'.next = [⟨e, t⟩] ∨
      ∃ n ∈ ns, n'.next = n.next ++ [⟨e, t⟩] ∧
        (n.next.any fun x => decide (x.event = e)) = false := by
  induction ns generalizing ns' with
  | nil =>
    simp only [insertNodes, Option.some.injEq] at h
    subst h
    simp only [List.mem_singleton] at hm
    subst hm
    right; left; rfl
  | cons n ns ih =>
    rw [insertNodes] at h
    by_cases hn : n.from' = f
    · rw [if_pos hn] at h
      by_cases hany : (n.next.any fun x => decide (x.event = e)) = true
      · rw [if_pos hany] at h; exact absurd h (by simp)
      · rw [if_neg hany, Option.some.injEq] at h
        subst h
        rcases List.mem_cons.mp hm with hm | hm
        · subst hm
          right; right
          exact ⟨n, List.mem_cons_self n ns, rfl, by simpa using hany⟩
        · left; exact List.mem_cons_of_mem n hm
    · rw [if_neg hn] at h
      cases hms : insertNodes e f t ns with
      | none => simp [hms] at h
      | some ms =>
        rw [hms, Option.map_some'] at h
        injection h with h
        subst h
        rcases List.mem_cons.mp hm with hm | hm
        · left; exact hm ▸ List.mem_cons_self n ns
        · rcases ih ms hms hm with h1 | h1 | ⟨n₀, hn₀, h2⟩
          · left; exact List.mem_cons_of_mem n h1
          · right; left; exact h1
          · right; right; exact ⟨n₀, List.mem_cons_of_mem n hn₀, h2⟩

theorem wf_new : (TransitionMap.new : TransitionMap S E T).Wf := by
  refine ⟨?_, ?_, ?_⟩ <;> simp [TransitionMap.new]

theorem TransitionMap.get_eq [DecidableEq S] [DecidableEq E] (e : E) (f : S)
    (m : TransitionMap S E T) : m.get e f = getNodes e f m.nodes := by
  cases m with
  | mk ns => exact get_eq_getNodes e f ns

/-- Insertion preserves well-formedness. -/
theorem wf_insert [DecidableEq S] [DecidableEq E] (m m' : TransitionMap S E T)
    (e : E) (f : S) (t : T) (h : m.insert e f t = some m') (hw : m.Wf) : m'.Wf := by
  obtain ⟨ns', hns', rfl⟩ : ∃ ns', insertNodes e f t m.nodes = some ns' ∧ m' = ⟨ns'⟩ := by
    cases hx : insertNodes e f t m.nodes with
    | none => rw [TransitionMap.insert, hx] at h; exact absurd h (by simp)
    | some y =>
      rw [TransitionMap.insert, hx, Option.map_some'] at h
      exact ⟨y, rfl, (Option.some.inj h).symm⟩
  obtain ⟨hnd, hne, hev⟩ := hw
  refine ⟨?_, ?_, ?_⟩
  · rcases insertNodes_map_from e f t m.nodes ns' hns' with heq | ⟨hnm, heq⟩
    · exact heq ▸ hnd
    · rw [heq, List.nodup_append]
      exact ⟨hnd, List.nodup_singleton f, by simpa using hnm⟩
  · intro n' hn'
    rcases mem_insertNodes e f t m.nodes ns' hns' n' hn' with h1 | h1 | ⟨n₀, hn₀, h2, _⟩
    · exact hne n' h1
    · simp [h1]
    · simp [h2]
  · intro n' hn'
    rcases mem_insertNodes e f t m.nodes ns' hns' n' hn' with h1 | h1 | ⟨n₀, hn₀, h2, hany⟩
    · exact hev n' h1
    · simp [h1]
    · rw [h2, List.map_append, List.nodup_append]
      refine ⟨hev n₀ hn₀, by simp, ?_⟩
      have : e ∉ n₀.next.map (·.event) := by
        intro hmem
        obtain ⟨x, hx, hxe⟩ := List.mem_map.mp hmem
        have := List.any_eq_false.mp hany x hx
        simp [hxe] at this
      simpa using this

theorem insert_isSome_of_get_none [DecidableEq S] [DecidableEq E]
    (m : TransitionMap S E T) (e : E) (f : S) (h : m.get e f = none) (t : T) :
    (m.insert e f t).isSome = true := by
  rw [TransitionMap.get_eq] at h
  have := insertNodes_isSome_of_getNodes_none e f t m.nodes h
  rw [TransitionMap.insert]
  cases hx : insertNodes e f t m.nodes with
  | none => rw [hx] at this; exact absurd this (by simp)
  | some y => simp [hx]

theorem get_isSome_of_insert_none [DecidableEq S] [DecidableEq E]
    (m : TransitionMap S E T) (e : E) (f : S) (t : T) (h : m.insert e f t = none) :
    (m.get e f).isSome = true := by
  rw [TransitionMap.get_eq]
  rw [TransitionMap.insert] at h
  cases hx : insertNodes e f t m.nodes with
  | none => exact getNodes_isSome_of_insertNodes_none e f t m.nodes hx
  | some y => rw [hx] at h; exact absurd h (by simp)

theorem get_none_of_insert_some [DecidableEq S] [DecidableEq E]
    (m m' : TransitionMap S E T) (e : E) (f : S) (t : T)
    (hnd : (m.nodes.map (·.from')).Nodup) (h : m.insert e f t = some m') :
    m.get e f = none := by
  rw [TransitionMap.get_eq]
  rw [TransitionMap.insert] at h
  cases hx : insertNodes e f t m.nodes with
  | none => rw [hx] at h; exact absurd h (by simp)
  | some y => exact getNodes_none_of_insertNodes_some e f t m.nodes y hnd hx

/-- Lookup after a successful `insert`: the inserted pair maps to the inserted
target, every other pair is unaffected. -/
theorem TransitionMap.get_insert [DecidableEq S] [DecidableEq E]
    (m m' : TransitionMap S E T) (e : E) (f : S) (t : T)
    (h : m.insert e f t = some m') (e' : E) (f' : S) :
    m'.get e' f' = if e' = e ∧ f' = f then some t else m.get e' f' := by
  obtain ⟨ns', hns', rfl⟩ : ∃ ns', insertNodes e f t m.nodes = some ns' ∧ m' = ⟨ns'⟩ := by
    cases hx : insertNodes e f t m.nodes with
    | none => rw [TransitionMap.insert, hx] at h; exact absurd h (by simp)
    | some y =>
      rw [TransitionMap.insert, hx, Option.map_some'] at h
      exact ⟨y, rfl, (Option.some.inj h).symm⟩
  rw [TransitionMap.get_eq, TransitionMap.get_eq]
  exact getNodes_insertNodes e f t m.nodes ns' hns' e' f'

theorem wf_insertList [DecidableEq S] [DecidableEq E] (l : List (E × S × T))
    (m m' : TransitionMap S E T) (h : TransitionMap.insertList l m = some m')
    (hw : m.Wf) : m'.Wf := by
  induction l generalizing m with
  | nil =>
    rw [TransitionMap.insertList, Option.some.injEq] at h
    exact h ▸ hw
  | cons x rest ih =>
    obtain ⟨e₀, f₀, t₀⟩ := x
    rw [TransitionMap.insertList] at h
    cases hm1 : m.insert e₀ f₀ t₀ with
    | none => rw [hm1] at h; exact absurd h (by simp)
    | some m₁ =>
      rw [hm1] at h
      exact ih m₁ h (wf_insert m m₁ e₀ f₀ t₀ hm1 hw)

/-- Reference association-list lookup over a batch of `(event, from, target)`
descriptors, used to state what a table built from the batch must return. -/
def keyFind [DecidableEq S] [DecidableEq E] (l : List (E × S × T)) (e : E) (f : S) :
    Option T :=
  (l.find? fun x => decide (x.1 = e) && decide (x.2.1 = f)).map fun x => x.2.2

theorem keyFind_nil [DecidableEq S] [DecidableEq E] (e : E) (f : S) :
    keyFind ([] : List (E × S × T)) e f = none := rfl

theorem keyFind_cons [DecidableEq S] [DecidableEq E] (e₀ : E) (f₀ : S) (t₀ : T)
    (rest : List (E × S × T)) (e : E) (f : S) :
    keyFind ((e₀, f₀, t₀) :: rest) e f =
      if e = e₀ ∧ f = f₀ then some t₀ else keyFind rest e f := by
  by_cases he : e = e₀
  · by_cases hf : f = f₀
    · subst he; subst hf
      simp [keyFind, List.find?]
    · have hd : decide (f₀ = f) = false := decide_eq_false fun hh => hf hh.symm
      subst he
      simp [keyFind, List.find?, hd, hf]
  · have hd : decide (e₀ = e) = false := decide_eq_false fun hh => he hh.symm
    simp [keyFind, List.find?, hd, he]

theorem keyFind_eq_none_of_not_mem [DecidableEq S] [DecidableEq E]
    (l : List (E × S × T)) (e : E) (f : S)
    (h : (f, e) ∉ l.map fun x => (x.2.1, x.1)) : keyFind l e f = none := by
  rw [keyFind, List.find?_eq_none.mpr, Option.map_none']
  intro x hx hpred
  simp only [Bool.and_eq_true, decide_eq_true_eq] at hpred
  exact h (List.mem_map.mpr ⟨x, hx, by rw [hpred.1, hpred.2]⟩)

/-- Inserting a batch of descriptors with pairwise-distinct `(from, event)` keys,
all fresh for the starting table, succeeds and yields a table that looks up the
batch first and falls back to the starting table. -/
theorem insertList_get [DecidableEq S] [DecidableEq E] (l : List (E × S × T))
    (m : TransitionMap S E T)
    (hfresh : ∀ x ∈ l, m.get x.1 x.2.1 = none)
    (hdist : (l.map fun x => (x.2.1, x.1)).Nodup) :
    ∃ m', TransitionMap.insertList l m = some m' ∧
      ∀ e f, m'.get e f =
        match keyFind l e f with
        | some t => some t
        | none => m.get e f := by
  induction l generalizing m with
  | nil => exact ⟨m, rfl, fun e f => by rw [keyFind_nil]⟩
  | cons x rest ih =>
    obtain ⟨e₀, f₀, t₀⟩ := x
    have hx0 : m.get e₀ f₀ = none := hfresh _ (List.mem_cons_self _ _)
    have hins := insert_isSome_of_get_none m e₀ f₀ hx0 t₀
    cases hm1 : m.insert e₀ f₀ t₀ with
    | none => rw [hm1] at hins; exact absurd hins (by simp)
    | some m₁ =>
      have hget1 := TransitionMap.get_insert m m₁ e₀ f₀ t₀ hm1
      simp only [List.map_cons, List.nodup_cons] at hdist
      have hfresh1 : ∀ x ∈ rest, m₁.get x.1 x.2.1 = none := by
        intro x hx
        rw [hget1]
        have hkey : ¬(x.1 = e₀ ∧ x.2.1 = f₀) := by
          rintro ⟨h1, h2⟩
          exact hdist.1 (List.mem_map.mpr ⟨x, hx, by rw [h1, h2]⟩)
        rw [if_neg hkey]
        exact hfresh x (List.mem_cons_of_mem _ hx)
      obtain ⟨m', hm', hchar⟩ := ih m₁ hfresh1 hdist.2
      refine ⟨m', ?_, ?_⟩
      · rw [TransitionMap.insertList, hm1]
        exact hm'
      · intro e f
        rw [hchar e f, keyFind_cons]
        by_cases hke : e = e₀ ∧ f = f₀
        · rw [if_pos hke]
          have hrest : keyFind rest e f = none := by
            refine keyFind_eq_none_of_not_mem rest e f ?_
            obtain ⟨rfl, rfl⟩ := hke
            exact hdist.1
          rw [hrest, hget1, if_pos hke]
        · rw [if_neg hke]
          cases hr : keyFind rest e f with
          | some t => rfl
          | none => rw [hget1, if_neg hke]

/-- With pairwise-distinct keys, `keyFind` retrieves each batch member. -/
theorem keyFind_of_mem [DecidableEq S] [DecidableEq E] (l : List (E × S × T))
    (hdist : (l.map fun x => (x.2.1, x.1)).Nodup)
    (x : E × S × T) (hx : x ∈ l) : keyFind l x.1 x.2.1 = some x.2.2 := by
  induction l with
  | nil => exact absurd hx (List.not_mem_nil x)
  | cons y rest ih =>
    obtain ⟨e₀, f₀, t₀⟩ := y
    simp only [List.map_cons, List.nodup_cons] at hdist
    rw [keyFind_cons]
    rcases List.mem_cons.mp hx with rfl | hx
    · rw [if_pos ⟨rfl, rfl⟩]
    · have hkey : ¬(x.1 = e₀ ∧ x.2.1 = f₀) := by
        rintro ⟨h1, h2⟩
        exact hdist.1 (List.mem_map.mpr ⟨x, hx, by rw [h1, h2]⟩)
      rw [if_neg hkey]
      exact ih hdist.2 hx

/-- The data shape shared by `Context` and `ContextMut` from
`src/blocking/context.rs`: source state, target state, triggering event, and
the context value visible to the callback at invocation time. -/
structure CtxView (S E Ctx : Type) where
  from' : S
  to' : S
  event : E
  context : Ctx

/-- One observed callback invocation during `send`: either the matched
transition's per-transition action (`OnAction::call`, receiving a `ContextMut`)
or the machine's global callback (`OnTransition::call`, receiving a `Context`). -/
inductive CallRecord (S E Ctx : Type) where
  | action (cx : CtxView S E Ctx)
  | onTransition (cx : CtxView S E Ctx)

def CallRecord.view : CallRecord S E Ctx → CtxView S E Ctx
  | .action cx => cx
  | .onTransition cx => cx

def CallRecord.isAction : CallRecord S E Ctx → Bool
  | .action _ => true
  | .onTransition _ => false

def CallRecord.isOnTransition : CallRecord S E Ctx → Bool
  | .action _ => false
  | .onTransition _ => true

/-- Rust `Next<'a, S, E, Ctx>` from `src/blocking/machine.rs`: the target state, the
final flag, and the optional per-transition action.  An action is modelled as a
pure function from the `ContextMut` view it receives to the context value it
leaves behind (it has mutable access to the context only). -/
structure Next (S E Ctx : Type) where
  next : S
  is_final : Bool
  action : Option (CtxView S E Ctx → Ctx)

/-- Rust `TransitionError` from `src/error.rs`. -/
inductive TransitionError where
  | Done
  | InvalidTransition
deriving DecidableEq, Repr

/-- Rust `Machine<'a, S, E, Ctx, F, Step>` from `src/blocking/machine.rs`.  The
global callback `on_transition: Option<F>` is modelled by whether it is
configured; its invocations (and the views it receives) are recorded in the
trace returned by `send`. -/
structure Machine (S E Ctx : Type) where
  transitions : TransitionMap S E (Next S E Ctx)
  current : Option S
  done : Bool
  context : Ctx
  on_transition : Bool

/-- Rust `Machine::start`: installs the initial state and resets `done`, keeping
the transition table, context and global callback. -/
def Machine.start (m : Machine S E Ctx) (initial_state : S) : Machine S E Ctx :=
  { m with current := some initial_state, done := false }

/-- Rust `Machine::send` from `src/blocking/machine.rs`, step by step:
1. if `done` is set, return `Err(TransitionError::Done)`;
2. unwrap `current` (the `None` case is the `unwrap` panic, modelled as `none`);
3. look up `(event, current)` via `get_mut`; on a miss return
   `Err(TransitionError::InvalidTransition)`;
4. `mem::replace` installs `next.clone()` into the state slot and captures the
   prior value;
5. if `is_final`, set `done`;
6. call the action (if any) with `ContextMut { from: state, to: next, event,
   context }` — `state` is the slot that was already overwritten in step 4;
7. call the global callback (if any) with a `Context` of the same shape,
   seeing the context as the action left it;
8. return `Ok(prev_state)`.
The returned triple is (result, machine after the call, trace of callback
invocations in order). -/
def Machine.send [DecidableEq S] [DecidableEq E] (m : Machine S E Ctx) (event : E) :
    Option (Except TransitionError S × Machine S E Ctx × List (CallRecord S E Ctx)) :=
  if m.done then
    some (.error .Done, m, [])
  else
    match m.current with
    | none => none
    | some state =>
      match m.transitions.get event state with
      | none => some (.error .InvalidTransition, m, [])
      | some nx =>
        let prev_state := state
        let newState := nx.next
        let newDone := if nx.is_final then true else m.done
        let newContext :=
          match nx.action with
          | none => m.context
          | some fa => fa ⟨newState, nx.next, event, m.context⟩
        let trace₁ : List (CallRecord S E Ctx) :=
          match nx.action with
          | none => []
          | some _ => [.action ⟨newState, nx.next, event, m.context⟩]
        let trace₂ : List (CallRecord S E Ctx) :=
          if m.on_transition then [.onTransition ⟨newState, nx.next, event, newContext⟩]
          else []
        some (.ok prev_state,
          { m with current := some newState, done := newDone, context := newContext },
          trace₁ ++ trace₂)

/-- Iterated dispatch: feed a list of events through `send`, threading the
machine; `none` as soon as one call panics. -/
def sendSeq [DecidableEq S] [DecidableEq E] :
    List E → Machine S E Ctx → Option (Machine S E Ctx)
  | [], m => some m
  | e :: es, m =>
    match m.send e with
    | none => none
    | some (_, m', _) => sendSeq es m'

theorem send_of_done [DecidableEq S] [DecidableEq E] (m : Machine S E Ctx)
    (h : m.done = true) (e : E) : m.send e = some (.error .Done, m, []) := by
  simp [Machine.send, h]

theorem send_of_unstarted [DecidableEq S] [DecidableEq E] (m : Machine S E Ctx)
    (h1 : m.done = false) (h2 : m.current = none) (e : E) : m.send e = none := by
  simp [Machine.send, h1, h2]

theorem send_of_invalid [DecidableEq S] [DecidableEq E] (m : Machine S E Ctx)
    (e : E) (st : S) (h1 : m.done = false) (h2 : m.current = some st)
    (h3 : m.transitions.get e st = none) :
    m.send e = some (.error .InvalidTransition, m, []) := by
  simp [Machine.send, h1, h2, h3]

theorem send_of_hit [DecidableEq S] [DecidableEq E] (m : Machine S E Ctx)
    (e : E) (st : S) (nx : Next S E Ctx) (h1 : m.done = false)
    (h2 : m.current = some st) (h3 : m.transitions.get e st = some nx) :
    m.send e = some (.ok st,
      { m with
        current := some nx.next
        done := if nx.is_final then true else m.done
        context :=
          match nx.action with
          | none => m.context
          | some fa => fa ⟨nx.next, nx.next, e, m.context⟩ },
      (match nx.action with
        | none => ([] : List (CallRecord S E Ctx))
        | some _ => [.action ⟨nx.next, nx.next, e, m.context⟩]) ++
      (if m.on_transition then
        [.onTransition ⟨nx.next, nx.next, e,
          match nx.action with
          | none => m.context
          | some fa => fa ⟨nx.next, nx.next, e, m.context⟩⟩]
       else [])) := by
  simp [Machine.send, h1, h2, h3]

theorem sendSeq_of_done [DecidableEq S] [DecidableEq E] (es : List E)
    (m : Machine S E Ctx) (h : m.done = true) : sendSeq es m = some m := by
  induction es with
  | nil => rfl
  | cons e es ih =>
    rw [sendSeq, send_of_done m h e]
    exact ih

theorem send_current_isSome [DecidableEq S] [DecidableEq E] (m : Machine S E Ctx)
    (e : E) (h : m.current.isSome = true) :
    ∃ r m' tr, m.send e = some (r, m', tr) ∧ m'.current.isSome = true := by
  by_cases hd : m.done = true
  · exact ⟨.error .Done, m, [], send_of_done m hd e, h⟩
  · have hd' : m.done = false := by simpa using hd
    obtain ⟨st, hst⟩ := Option.isSome_iff_exists.mp h
    cases hnx : m.transitions.get e st with
    | none =>
      exact ⟨.error .InvalidTransition, m, [], send_of_invalid m e st hd' hst hnx, h⟩
    | some nx =>
      exact ⟨_, _, _, send_of_hit m e st nx hd' hst hnx, rfl⟩

theorem sendSeq_current_isSome [DecidableEq S] [DecidableEq E] (es : List E)
    (m : Machine S E Ctx) (h : m.current.isSome = true) :
    ∃ m', sendSeq es m = some m' ∧ m'.current.isSome = true := by
  induction es generalizing m with
  | nil => exact ⟨m, rfl, h⟩
  | cons e es ih =>
    obtain ⟨r, m₁, tr, hsend, h1⟩ := send_current_isSome m e h
    obtain ⟨m', hm', h2⟩ := ih m₁ h1
    exact ⟨m', by rw [sendSeq, hsend]; exact hm', h2⟩

/-- C1: on a started, not-done machine, `send` of an event with no registered
transition from the current state returns `InvalidTransition` and leaves the
machine — in particular its current state and its context — exactly unchanged,
invoking no callback. -/
theorem c1_invalid_transition_unchanged [DecidableEq S] [DecidableEq E]
    (m : Machine S E Ctx) (e : E) (st : S) (h1 : m.done = false)
    (h2 : m.current = some st) (h3 : m.transitions.get e st = none) :
    m.send e = some (.error .InvalidTransition, m, []) :=
  send_of_invalid m e st h1 h2 h3

/-- C2: once a `send` fires a transition marked `is_final`, the resulting
machine has `done = true`, any further sequence of `send` calls leaves it
exactly unchanged, and every single subsequent `send` — for every event —
returns `Done` without mutating anything and without invoking callbacks. -/
theorem c2_done_latched [DecidableEq S] [DecidableEq E] (m : Machine S E Ctx)
    (e : E) (st : S) (nx : Next S E Ctx) (es : List E) (e' : E)
    (h1 : m.done = false) (h2 : m.current = some st)
    (h3 : m.transitions.get e st = some nx) (hf : nx.is_final = true) :
    ∃ m' tr, m.send e = some (.ok st, m', tr) ∧ m'.done = true ∧
      sendSeq es m' = some m' ∧ m'.send e' = some (.error .Done, m', []) := by
  refine ⟨_, _, send_of_hit m e st nx h1 h2 h3, ?_, ?_, ?_⟩
  · simp [hf]
  · exact sendSeq_of_done es _ (by simp [hf])
  · exact send_of_done _ (by simp [hf]) e'

/-- C3: a successful `send` returns as its `Ok` payload the state `current`
held immediately before the call, and afterwards `current` holds the matched
descriptor's target state. -/
theorem c3_prev_state_and_target [DecidableEq S] [DecidableEq E]
    (m : Machine S E Ctx) (e : E) (st : S) (nx : Next S E Ctx)
    (h1 : m.done = false) (h2 : m.current = some st)
    (h3 : m.transitions.get e st = some nx) :
    ∃ m' tr, m.send e = some (.ok st, m', tr) ∧ m'.current = some nx.next :=
  ⟨_, _, send_of_hit m e st nx h1 h2 h3, rfl⟩

/-- C5: on a successful `send`, every callback view (both the action's
`ContextMut` and the global callback's `Context`) carries the already-updated
state in its `from` field — the state slot is overwritten before the callbacks
run — so `from` and `to` both denote the matched descriptor's target. -/
theorem c5_views_expose_new_state [DecidableEq S] [DecidableEq E]
    (m : Machine S E Ctx) (e : E) (st : S) (nx : Next S E Ctx)
    (h1 : m.done = false) (h2 : m.current = some st)
    (h3 : m.transitions.get e st = some nx) :
    ∃ m' tr, m.send e = some (.ok st, m', tr) ∧
      ∀ r ∈ tr, (CallRecord.view r).from' = nx.next ∧
        (CallRecord.view r).to' = nx.next := by
  refine ⟨_, _, send_of_hit m e st nx h1 h2 h3, ?_⟩
  intro r hr
  rcases List.mem_append.mp hr with hr | hr
  · cases ha : nx.action with
    | none => rw [ha] at hr; exact absurd hr (List.not_mem_nil r)
    | some fa =>
      rw [ha] at hr
      simp only [List.mem_singleton] at hr
      subst hr
      exact ⟨rfl, rfl⟩
  · by_cases ho : m.on_transition = true
    · rw [if_pos ho] at hr
      simp only [List.mem_singleton] at hr
      subst hr
      exact ⟨rfl, rfl⟩
    · rw [if_neg ho] at hr
      exact absurd hr (List.not_mem_nil r)

/-- C10: starting any machine and then dispatching any sequence of events
never hits the `unwrap` of `current`: the run always completes (no panic) and
the internal `current` field is `Some` at every step, in particular at the
end. -/
theorem c10_current_always_some [DecidableEq S] [DecidableEq E]
    (m0 : Machine S E Ctx) (s : S) (es : List E) :
    ∃ m', sendSeq es (m0.start s) = some m' ∧ m'.current.isSome = true :=
  sendSeq_current_isSome es (m0.start s) rfl

/-- C4: on a failed `send` (whether `Done` or `InvalidTransition`) no callback
runs at all; on a successful `send` the global callback runs exactly once when
configured (never otherwise), the matched descriptor's action runs exactly
once when present (never otherwise), and every action invocation precedes
every global-callback invocation. -/
theorem c4_callback_discipline [DecidableEq S] [DecidableEq E]
    (m : Machine S E Ctx) (e : E) (r : Except TransitionError S)
    (m' : Machine S E Ctx) (tr : List (CallRecord S E Ctx))
    (h : m.send e = some (r, m', tr)) :
    (∀ err, r = .error err → tr = []) ∧
    (∀ s, r = .ok s →
      tr.countP (·.isOnTransition) = (if m.on_transition then 1 else 0) ∧
      (∀ st nx, m.current = some st → m.transitions.get e st = some nx →
        tr.countP (·.isAction) = if nx.action.isSome then 1 else 0) ∧
      ∃ pre post, tr = pre ++ post ∧ (∀ x ∈ pre, x.isAction = true) ∧
        (∀ x ∈ post, x.isOnTransition = true)) := by
  by_cases hd : m.done = true
  · rw [send_of_done m hd e] at h
    simp only [Option.some.injEq, Prod.mk.injEq] at h
    obtain ⟨rfl, rfl, rfl⟩ := h
    exact ⟨fun _ _ => rfl, fun s hs => nomatch hs⟩
  · have hd' : m.done = false := by simpa using hd
    cases hcur : m.current with
    | none =>
      rw [send_of_unstarted m hd' hcur e] at h
      exact absurd h (by simp)
    | some st =>
      cases hnx : m.transitions.get e st with
      | none =>
        rw [send_of_invalid m e st hd' hcur hnx] at h
        simp only [Option.some.injEq, Prod.mk.injEq] at h
        obtain ⟨rfl, rfl, rfl⟩ := h
        exact ⟨fun _ _ => rfl, fun s hs => nomatch hs⟩
      | some nx =>
        rw [send_of_hit m e st nx hd' hcur hnx] at h
        simp only [Option.some.injEq, Prod.mk.injEq] at h
        obtain ⟨rfl, rfl, rfl⟩ := h
        refine ⟨?_, ?_⟩
        · intro err herr
          exact absurd herr (by simp)
        intro s _
        refine ⟨?_, ?_, ?_⟩
        · cases ha : nx.action <;> cases ho : m.on_transition <;>
            simp [ha, ho, List.countP_append, List.countP_cons,
              CallRecord.isOnTransition]
        · intro st' nx' hst' hnx'
          obtain rfl : st = st' := Option.some.inj hst'
          rw [hnx, Option.some.injEq] at hnx'
          subst hnx'
          cases ha : nx.action <;> cases ho : m.on_transition <;>
            simp [ha, ho, List.countP_append, List.countP_cons,
              CallRecord.isAction, CallRecord.isOnTransition]
        · refine ⟨_, _, rfl, ?_, ?_⟩
          · intro x hx
            cases ha : nx.action with
            | none => rw [ha] at hx; exact absurd hx (List.not_mem_nil x)
            | some fa =>
              rw [ha] at hx
              simp only [List.mem_singleton] at hx
              subst hx
              rfl
          · intro x hx
            by_cases ho : m.on_transition = true
            · rw [if_pos ho] at hx
              simp only [List.mem_singleton] at hx
              subst hx
              rfl
            · rw [if_neg ho] at hx
              exact absurd hx (List.not_mem_nil x)

/-- C8: a `send` call can change only `current`, `done` and `context`: the
transition table and the configured global callback are untouched; on failure
nothing at all changes, and on success `current` and `done` are fixed by the
matched descriptor alone — the action influences only the resulting context. -/
theorem c8_frame [DecidableEq S] [DecidableEq E] (m : Machine S E Ctx) (e : E)
    (r : Except TransitionError S) (m' : Machine S E Ctx)
    (tr : List (CallRecord S E Ctx)) (h : m.send e = some (r, m', tr)) :
    m'.transitions = m.transitions ∧ m'.on_transition = m.on_transition ∧
    (∀ err, r = .error err → m' = m) ∧
    (∀ s, r = .ok s → ∀ st nx, m.current = some st →
      m.transitions.get e st = some nx →
      m'.current = some nx.next ∧ m'.done = (if nx.is_final then true else m.done) ∧
      m'.context = (match nx.action with
        | none => m.context
        | some fa => fa ⟨nx.next, nx.next, e, m.context⟩)) := by
  by_cases hd : m.done = true
  · rw [send_of_done m hd e] at h
    simp only [Option.some.injEq, Prod.mk.injEq] at h
    obtain ⟨rfl, rfl, rfl⟩ := h
    exact ⟨rfl, rfl, fun _ _ => rfl, fun s hs => nomatch hs⟩
  · have hd' : m.done = false := by simpa using hd
    cases hcur : m.current with
    | none =>
      rw [send_of_unstarted m hd' hcur e] at h
      exact absurd h (by simp)
    | some st =>
      cases hnx : m.transitions.get e st with
      | none =>
        rw [send_of_invalid m e st hd' hcur hnx] at h
        simp only [Option.some.injEq, Prod.mk.injEq] at h
        obtain ⟨rfl, rfl, rfl⟩ := h
        exact ⟨rfl, rfl, fun _ _ => rfl, fun s hs => nomatch hs⟩
      | some nx =>
        rw [send_of_hit m e st nx hd' hcur hnx] at h
        simp only [Option.some.injEq, Prod.mk.injEq] at h
        obtain ⟨rfl, rfl, rfl⟩ := h
        refine ⟨rfl, rfl, ?_, ?_⟩
        · intro err herr
          exact absurd herr (by simp)
        intro s _ st' nx' hst' hnx'
        obtain rfl : st = st' := Option.some.inj hst'
        rw [hnx, Option.some.injEq] at hnx'
        subst hnx'
        exact ⟨rfl, rfl, rfl⟩

/-- C6: inserting any batch of descriptors with pairwise-distinct
`(from, event)` keys into an empty table succeeds, every registered pair then
looks up to exactly the target inserted for it, and every pair outside the
batch looks up to `none`. -/
theorem c6_batch_lookup [DecidableEq S] [DecidableEq E] (l : List (E × S × T))
    (e : E) (f : S) (hdist : (l.map fun x => (x.2.1, x.1)).Nodup) :
    ∃ m, TransitionMap.insertList l TransitionMap.new = some m ∧
      (∀ x ∈ l, m.get x.1 x.2.1 = some x.2.2) ∧
      ((f, e) ∉ (l.map fun x => (x.2.1, x.1)) → m.get e f = none) := by
  obtain ⟨m, hm, hchar⟩ :=
    insertList_get l TransitionMap.new (fun x _ => rfl) hdist
  refine ⟨m, hm, ?_, ?_⟩
  · intro x hx
    rw [hchar x.1 x.2.1, keyFind_of_mem l hdist x hx]
  · intro hnm
    rw [hchar e f, keyFind_eq_none_of_not_mem l e f hnm]
    rfl

/-- C7: on a well-formed table (which every table the library builds is),
`insert` panics exactly when a descriptor for the same `(from, event)` pair is
already registered; a successful insertion keeps the table well-formed, makes
the new pair look up to the inserted target, and leaves every other pair's
lookup untouched — nothing is ever silently overwritten. -/
theorem c7_duplicate_insert_panics [DecidableEq S] [DecidableEq E]
    (m : TransitionMap S E T) (e : E) (f : S) (t : T) (hw : m.Wf) :
    (m.insert e f t = none ↔ (m.get e f).isSome = true) ∧
    (∀ m', m.insert e f t = some m' →
      m'.Wf ∧ m'.get e f = some t ∧
      ∀ e' f', ¬(e' = e ∧ f' = f) → m'.get e' f' = m.get e' f') := by
  constructor
  · constructor
    · exact fun h => get_isSome_of_insert_none m e f t h
    · intro h
      cases hx : m.insert e f t with
      | none => rfl
      | some m' =>
        have := get_none_of_insert_some m m' e f t hw.1 hx
        rw [this] at h
        exact absurd h (by simp)
  · intro m' h
    refine ⟨wf_insert m m' e f t h hw, ?_, ?_⟩
    · rw [TransitionMap.get_insert m m' e f t h e f, if_pos ⟨rfl, rfl⟩]
    · intro e' f' hne
      rw [TransitionMap.get_insert m m' e f t h e' f', if_neg hne]

/-- C9: for a table built by a sequence of successful inserts, the `states`
sequence enumerates the distinct registered source states (no repetitions, and
a state appears iff some registered pair has it as source), and the `events`
sequence is exactly the event of every registered entry, in table order.  In
the pure model each call trivially re-traverses the same finite list. -/
theorem c9_states_events [DecidableEq S] [DecidableEq E] (l : List (E × S × T))
    (m : TransitionMap S E T)
    (h : TransitionMap.insertList l TransitionMap.new = some m) :
    m.states.Nodup ∧ (∀ s, s ∈ m.states ↔ s ∈ m.keys.map Prod.fst) ∧
      m.events = m.keys.map Prod.snd := by
  have hw : m.Wf := wf_insertList l TransitionMap.new m h wf_new
  refine ⟨hw.1, ?_, ?_⟩
  · intro s
    constructor
    · intro hs
      simp only [TransitionMap.states, List.mem_map] at hs
      obtain ⟨n, hn, rfl⟩ := hs
      have hne := hw.2.1 n hn
      obtain ⟨x, hx⟩ : ∃ x, x ∈ n.next := by
        cases hc : n.next with
        | nil => exact absurd hc hne
        | cons a as => exact ⟨a, hc ▸ List.mem_cons_self a as⟩
      simp only [TransitionMap.keys, List.mem_map, List.mem_flatten]
      exact ⟨(n.from', x.event),
        ⟨n.next.map fun y => (n.from', y.event), ⟨n, hn, rfl⟩,
          List.mem_map.mpr ⟨x, hx, rfl⟩⟩, rfl⟩
    · intro hs
      simp only [TransitionMap.keys, List.mem_map, List.mem_flatten] at hs
      obtain ⟨p, ⟨L, hL, hpL⟩, hps⟩ := hs
      obtain ⟨n, hn, rfl⟩ := hL
      obtain ⟨x, _, hxp⟩ := List.mem_map.mp hpL
      simp only [TransitionMap.states, List.mem_map]
      exact ⟨n, hn, by rw [← hps, ← hxp]⟩
  · rw [TransitionMap.events, TransitionMap.keys]
    generalize m.nodes = ns
    induction ns with
    | nil => rfl
    | cons n ns ih => simp [ih, List.map_map, Function.comp]

instance [DecidableEq S] [DecidableEq E] [DecidableEq T] (m : TransitionMap S E T) :
    Decidable m.Wf := by
  unfold TransitionMap.Wf
  infer_instance

/-- Concrete machine with an empty transition table, witnessing C1. -/
def mW1 : Machine Nat Nat Nat :=
  { transitions := TransitionMap.new, current := some 0, done := false,
    context := 5, on_transition := true }

theorem c1_witness : mW1.send 7 = some (.error .InvalidTransition, mW1, []) :=
  c1_invalid_transition_unchanged mW1 7 0 rfl rfl rfl

/-- A final transition `0 --1--> 3`, witnessing C2. -/
def nxW2 : Next Nat Nat Nat := { next := 3, is_final := true, action := none }

def mW2 : Machine Nat Nat Nat :=
  { transitions := ⟨[⟨0, [⟨1, nxW2⟩]⟩]⟩, current := some 0, done := false,
    context := 0, on_transition := false }

theorem c2_witness :
    ∃ m' tr, mW2.send 1 = some (.ok 0, m', tr) ∧ m'.done = true ∧
      sendSeq [1, 2] m' = some m' ∧ m'.send 9 = some (.error .Done, m', []) :=
  c2_done_latched mW2 1 0 nxW2 [1, 2] 9 rfl rfl rfl rfl

/-- A non-final transition `0 --1--> 2` whose action adds the event to the
context, on a machine with a configured global callback. -/
def nxWA : Next Nat Nat Nat :=
  { next := 2, is_final := false, action := some fun cx => cx.context + cx.event }

def mWA : Machine Nat Nat Nat :=
  { transitions := ⟨[⟨0, [⟨1, nxWA⟩]⟩]⟩, current := some 0, done := false,
    context := 5, on_transition := true }

theorem c3_witness :
    ∃ m' tr, mWA.send 1 = some (.ok 0, m', tr) ∧ m'.current = some nxWA.next :=
  c3_prev_state_and_target mWA 1 0 nxWA rfl rfl rfl

/-- The machine and trace produced by `mWA.send 1`. -/
def mWA' : Machine Nat Nat Nat :=
  { transitions := ⟨[⟨0, [⟨1, nxWA⟩]⟩]⟩, current := some 2, done := false,
    context := 6, on_transition := true }

def trWA : List (CallRecord Nat Nat Nat) :=
  [.action ⟨2, 2, 1, 5⟩, .onTransition ⟨2, 2, 1, 6⟩]

theorem c4_witness :
    (∀ err, (Except.ok 0 : Except TransitionError Nat) = .error err → trWA = []) ∧
    (∀ s, (Except.ok 0 : Except TransitionError Nat) = .ok s →
      trWA.countP (·.isOnTransition) = (if mWA.on_transition then 1 else 0) ∧
      (∀ st nx, mWA.current = some st → mWA.transitions.get 1 st = some nx →
        trWA.countP (·.isAction) = if nx.action.isSome then 1 else 0) ∧
      ∃ pre post, trWA = pre ++ post ∧ (∀ x ∈ pre, x.isAction = true) ∧
        (∀ x ∈ post, x.isOnTransition = true)) :=
  c4_callback_discipline mWA 1 (.ok 0) mWA' trWA rfl

theorem c5_witness :
    ∃ m' tr, mWA.send 1 = some (.ok 0, m', tr) ∧
      ∀ r ∈ tr, (CallRecord.view r).from' = nxWA.next ∧
        (CallRecord.view r).to' = nxWA.next :=
  c5_views_expose_new_state mWA 1 0 nxWA rfl rfl rfl

def lW6 : List (Nat × Nat × Nat) := [(1, 0, 10), (2, 0, 20), (1, 5, 30)]

theorem c6_witness :
    ∃ m, TransitionMap.insertList lW6 TransitionMap.new = some m ∧
      (∀ x ∈ lW6, m.get x.1 x.2.1 = some x.2.2) ∧
      ((9, 9) ∉ (lW6.map fun x => (x.2.1, x.1)) → m.get 9 9 = none) :=
  c6_batch_lookup lW6 9 9 (by decide)

def mW7 : TransitionMap Nat Nat Nat := ⟨[⟨0, [⟨1, 10⟩]⟩]⟩

theorem c7_witness :
    (mW7.insert 1 0 99 = none ↔ (mW7.get 1 0).isSome = true) ∧
    (∀ m', mW7.insert 1 0 99 = some m' →
      m'.Wf ∧ m'.get 1 0 = some 99 ∧
      ∀ e' f', ¬(e' = 1 ∧ f' = 0) → m'.get e' f' = mW7.get e' f') :=
  c7_duplicate_insert_panics mW7 1 0 99 (by decide)

def lW9 : List (Nat × Nat × Nat) := [(1, 0, 10), (2, 0, 20), (3, 7, 30)]

/-- The table `insertList lW9` builds. -/
def mW9 : TransitionMap Nat Nat Nat := ⟨[⟨0, [⟨1, 10⟩, ⟨2, 20⟩]⟩, ⟨7, [⟨3, 30⟩]⟩]⟩

theorem c9_witness :
    mW9.states.Nodup ∧ (∀ s, s ∈ mW9.states ↔ s ∈ mW9.keys.map Prod.fst) ∧
      mW9.events = mW9.keys.map Prod.snd :=
  c9_states_events lW9 mW9 rfl

theorem c10_witness :
    ∃ m', sendSeq [1, 1, 2] (mW1.start 0) = some m' ∧ m'.current.isSome = true :=
  c10_current_always_some mW1 0 [1, 1, 2]

theorem c8_witness :
    mWA'.transitions = mWA.transitions ∧ mWA'.on_transition = mWA.on_transition ∧
    mWA'.current = some nxWA.next ∧ mWA'.done = false ∧ mWA'.context = 6 :=
  have h := c8_frame mWA 1 (.ok 0) mWA' trWA rfl
  have h5 := h.2.2.2 0 rfl 0 nxWA rfl rfl
  ⟨h.1, h.2.1, h5.1, h5.2.1, h5.2.2⟩
